import Mathlib

/-!
Verification of the MapReduce repository (mapreduce.c, usr_functions.c).

Files are modelled as lists of byte values (`List Nat`); the models below are
translated from the C source.  The byte-count arithmetic of the partitioner
uses `strlen`, so the byte-list models correspond to the C code exactly on
inputs that contain no NUL byte; theorems that quantify over arbitrary inputs
carry a `NulFree` hypothesis recording this correspondence domain.
-/

set_option maxRecDepth 8000

namespace MapReduce

/-- Newline byte. -/
def NL : Nat := 10

/-- The input contains no NUL byte (correspondence domain of the byte-list
model: `strlen`/`fputs`/`strcpy` in the C source treat NUL specially). -/
def NulFree (l : List Nat) : Prop := ∀ b ∈ l, b ≠ 0

/-- Every run of consecutive non-newline bytes is at most 1022 bytes long,
i.e. every record (line including its newline) fits in the partitioner's
1024-byte `fgets` buffer: every full 1023-byte window contains a newline. -/
def ShortLines (l : List Nat) : Prop :=
  ∀ i, 1023 ≤ (l.drop i).length → NL ∈ (l.drop i).take 1023

/-- The byte list is empty or ends with a newline. -/
def EndsNL (l : List Nat) : Prop := l = [] ∨ l.getLast? = some NL

/-! ## Partitioner (mapreduce.c, lines 47-71)

```
char buffer[1024];
long bytes_read = 0;
while (bytes_read < split_size && fgets(buffer, sizeof(buffer), input_file)) {
    fputs(buffer, split_file);
    bytes_read += strlen(buffer);
}
```
`split_size = input_file_size / total_splits` is computed once (line 36). -/

/-- Number of bytes one `fgets(buffer, 1024, f)` call consumes from the
remaining input: up to 1023 bytes, stopping right after the first newline. -/
def fgetsLen (input : List Nat) : Nat :=
  if (input.takeWhile (fun b => b ≠ NL)).length < input.length ∧
      (input.takeWhile (fun b => b ≠ NL)).length ≤ 1022
  then (input.takeWhile (fun b => b ≠ NL)).length + 1
  else min 1023 input.length

/-- The bytes one `fgets` call reads from the remaining input. -/
def fgetsChunk (input : List Nat) : List Nat := input.take (fgetsLen input)

/-- The splitting loop of the partitioner: `fuel` bounds the number of
iterations (each loop iteration consumes at least one byte, so
`input.length` iterations always suffice), `bytes` is `bytes_read`, and the
result is (bytes written to the split file, remaining unread input). -/
def splitLoop (sz : Nat) : Nat → Nat → List Nat → List Nat × List Nat
  | 0, _, input => ([], input)
  | f + 1, bytes, input =>
    if bytes < sz then
      match input with
      | [] => ([], [])
      | b :: rest =>
        (fgetsChunk (b :: rest) ++
          (splitLoop sz f (bytes + fgetsLen (b :: rest))
            ((b :: rest).drop (fgetsLen (b :: rest)))).1,
         (splitLoop sz f (bytes + fgetsLen (b :: rest))
            ((b :: rest).drop (fgetsLen (b :: rest)))).2)
    else ([], input)

/-- One split-file write pass (the body of the `for` loop at line 47):
returns (content of the split file, remaining input). -/
def writeSplit (sz : Nat) (input : List Nat) : List Nat × List Nat :=
  splitLoop sz (input.length + 1) 0 input

/-- Iterated splitting: produce `k` split files, threading the remaining
input; returns (list of split contents, final remaining input). -/
def mrSplitsAux (sz : Nat) : Nat → List Nat → List (List Nat) × List Nat
  | 0, input => ([], input)
  | k + 1, input =>
    let p := writeSplit sz input
    let q := mrSplitsAux sz k p.2
    (p.1 :: q.1, q.2)

/-- The contents of the `n` split files `split-0 .. split-(n-1)` produced by
the partitioner for the given input (split size = `input.length / n`,
line 36 of mapreduce.c). -/
def mrSplits (n : Nat) (input : List Nat) : List (List Nat) :=
  (mrSplitsAux (input.length / n) n input).1

/-- Remaining (unread) input after the first `k` split files are written. -/
def stageRem (sz k : Nat) (input : List Nat) : List Nat :=
  (mrSplitsAux sz k input).2

/-! ## ASCII decimal rendering (`snprintf "%c %d\n"`) -/

/-- Decimal digits of `n` as ASCII bytes (fuel-driven). -/
def digitsAux : Nat → Nat → List Nat
  | 0, _ => []
  | f + 1, n => if n < 10 then [48 + n] else digitsAux f (n / 10) ++ [48 + n % 10]

/-- Decimal ASCII rendering of a natural number. -/
def natDigits (n : Nat) : List Nat := digitsAux (n + 1) n

/-- One `"%c %d\n"` output line: letter byte, space, decimal count, newline. -/
def countLine (c v : Nat) : List Nat := c :: 32 :: (natDigits v ++ [NL])

/-! ## letter_counter_map (usr_functions.c, lines 19-63)

Counts occurrences of each letter (case-insensitive) over the whole split,
then writes a `"%c %d\n"` line for each letter with a positive count, in
alphabetical order. -/

/-- Occurrences of letter number `j` (0 = A) in the data, counting the
uppercase byte `65+j` and the lowercase byte `97+j` (lines 34-40). -/
def letterFreq (data : List Nat) (j : Nat) : Nat :=
  data.countP (fun b => b = 65 + j ∨ b = 97 + j)

/-- Bytes written to the intermediate file by `letter_counter_map` on the
given split content (lines 50-60). -/
def letter_counter_map (data : List Nat) : List Nat :=
  (List.range 26).flatMap
    (fun j => if 0 < letterFreq data j then countLine (65 + j) (letterFreq data j) else [])

/-! ## letter_counter_reduce (usr_functions.c, lines 79-136)

Reads each intermediate file in 255-byte chunks (line 100), null-terminates
the chunk, tokenizes it with `strtok(. , "\n")` and parses each token with
`sscanf(line, "%c %d", ...)`; tokens whose first byte is an uppercase letter
add their count to the aggregate.  Note that tokenization is per 255-byte
chunk, exactly as in the C code. -/

/-- Split a byte list into successive 255-byte read chunks. -/
def chunksAux : Nat → List Nat → List (List Nat)
  | 0, _ => []
  | _ + 1, [] => []
  | f + 1, b :: rest => (b :: rest).take 255 :: chunksAux f ((b :: rest).drop 255)

/-- The successive 255-byte chunks returned by `read(fd, buf, 255)`. -/
def readChunks (l : List Nat) : List (List Nat) := chunksAux (l.length + 1) l

/-- `strtok(buf, "\n")` tokenization: maximal nonempty runs of non-newline
bytes (fuel-driven). -/
def tokensAux : Nat → List Nat → List (List Nat)
  | 0, _ => []
  | f + 1, l =>
    let l' := l.dropWhile (fun b => b = NL)
    match l' with
    | [] => []
    | b :: rest =>
      let t := (b :: rest).takeWhile (fun b => b ≠ NL)
      t :: tokensAux f ((b :: rest).drop t.length)

/-- All `strtok` tokens of a chunk. -/
def tokensOf (l : List Nat) : List (List Nat) := tokensAux (l.length + 1) l

/-- C `isspace` bytes skipped by the `" %d"` part of `sscanf`. -/
def isCSpace (b : Nat) : Bool := b = 32 || b = 9 || b = 10 || b = 11 || b = 12 || b = 13

/-- `%d` conversion on the remainder of a token: skip whitespace, optional
sign, then a nonempty maximal digit prefix. -/
def parseDec (l : List Nat) : Option Int :=
  let l1 := l.dropWhile isCSpace
  let sl : Int × List Nat :=
    match l1 with
    | 45 :: r => (-1, r)
    | 43 :: r => (1, r)
    | r => (1, r)
  let ds := sl.2.takeWhile (fun b => 48 ≤ b ∧ b ≤ 57)
  if ds = [] then none
  else some (sl.1 * ds.foldl (fun a b => a * 10 + ((b : Int) - 48)) 0)

/-- `sscanf(line, "%c %d", &letter, &count)`: the first byte is the letter,
the rest is parsed as a decimal count; `none` when fewer than two
conversions succeed. -/
def parseCountLine (l : List Nat) : Option (Nat × Int) :=
  match l with
  | [] => none
  | c :: rest =>
    match parseDec rest with
    | none => none
    | some v => some (c, v)

/-- Aggregated count for letter number `j` over all intermediate files
(lines 91-120): per file, per 255-byte chunk, per token, add the parsed
count when the parsed letter is the uppercase byte `65+j`. -/
def letterTotals (files : List (List Nat)) (j : Nat) : Int :=
  ((files.flatMap (fun f => (readChunks f).flatMap tokensOf)).foldl
    (fun a tok =>
      match parseCountLine tok with
      | some (c, v) => if c = 65 + j then a + v else a
      | none => a) 0)

/-- Bytes written to `mr.rst` by `letter_counter_reduce` on the given
intermediate-file contents (lines 123-133). -/
def letter_counter_reduce (files : List (List Nat)) : List Nat :=
  (List.range 26).flatMap
    (fun j => if 0 < letterTotals files j then countLine (65 + j) (letterTotals files j).toNat else [])

/-! ## word_finder_map (usr_functions.c, lines 148-202)

Assembles lines character by character from the split; on a `'\n'` byte or
when the line buffer already holds 1023 bytes, the assembled line is
null-terminated and searched, and the triggering character is *not* kept
(neither branch of the `if` at line 167 appends it).  A trailing line that
ends at end-of-input without a `'\n'` is never searched (the loop at
line 165 only flushes on those two conditions).  The model is faithful for
nonempty target words (with an empty word the C `strstr` loop at lines
173-187 never advances). -/

/-- First position `p ≥ start` at which `target` occurs in `line`
(`strstr(search_ptr, target_word)`), if any. -/
def strstrFrom (line target : List Nat) (start : Nat) : Option Nat :=
  (((List.range (line.length + 1)).filter
      (fun p => start ≤ p && target.isPrefixOf (line.drop p))).head?)

/-- The word-boundary test of lines 175-177: the match starts at the line
start or after a space, and is followed by `','`, `'.'`, `' '` or the
terminating NUL (end of line). -/
def wfBoundaryOk (line target : List Nat) (p : Nat) : Bool :=
  (p = 0 || line.getD (p - 1) 0 = 32) &&
  (if p + target.length < line.length then
     line.getD (p + target.length) 0 = 44 ||
     line.getD (p + target.length) 0 = 46 ||
     line.getD (p + target.length) 0 = 32
   else true)

/-- The `strstr` search loop (lines 173-187): on a boundary match the line
is emitted and the loop breaks; otherwise the search pointer advances by
the target's length.  Fuel-driven; `line.length + 1` fuel suffices for a
nonempty target. -/
def wfSearchAux (line target : List Nat) : Nat → Nat → Bool
  | _, 0 => false
  | start, f + 1 =>
    match strstrFrom line target start with
    | none => false
    | some p =>
      if wfBoundaryOk line target p then true
      else wfSearchAux line target (p + target.length) f

/-- Whether a completed line is written to the intermediate file. -/
def lineMatches (target line : List Nat) : Bool :=
  wfSearchAux line target 0 (line.length + 1)

/-- The per-character line-assembly loop of `word_finder_map` (lines
164-192): `acc` is the current line buffer contents. -/
def wfGo (target acc : List Nat) : List Nat → List Nat
  | [] => []
  | c :: rest =>
    if c = NL ∨ acc.length = 1023 then
      (if lineMatches target acc then acc ++ [NL] else []) ++ wfGo target [] rest
    else wfGo target (acc ++ [c]) rest

/-- Bytes written to the intermediate file by `word_finder_map` with the
given target word on the given split content. -/
def word_finder_map (target data : List Nat) : List Nat := wfGo target [] data

/-- The line-buffer contents left after processing the given bytes (used to
reason about what the loop never flushes). -/
def wfAcc (acc : List Nat) : List Nat → List Nat
  | [] => acc
  | c :: rest =>
    if c = NL ∨ acc.length = 1023 then wfAcc [] rest else wfAcc (acc ++ [c]) rest

/-! ## word_finder_reduce (usr_functions.c, lines 219-254)

Reads each intermediate file in 1024-byte chunks and writes every chunk
through to the result file unchanged: the result is the concatenation of
the intermediate files in index order. -/

/-- Bytes written to `mr.rst` by `word_finder_reduce` on the given
intermediate-file contents. -/
def word_finder_reduce (files : List (List Nat)) : List Nat := files.flatten

/-- ASCII bytes of a string literal (test inputs). -/
def strBytes (s : String) : List Nat := s.toList.map Char.toNat

/-! ## Coordinator and worker lifecycle (mapreduce.c, lines 74-167)

The coordinator and each worker process are modelled by the sequence of
observable events each performs, in program order; a run of the whole job
is an interleaving of those sequences subject to fork/wait ordering.
`fork` results and `waitpid` statuses are oracles (they are decided by the
operating system), as are the in-child outcomes of `open` calls.

Modelled from the spec: `common.h` is not under src/, so the `SUCCESS`
constant and the `EXIT_ERROR` macro are taken from the spec (§6-§7): a
fatal setup error such as a fork failure "terminates the whole job process
immediately with a non-zero status and a diagnostic", hence success status
is 0 and `EXIT_ERROR` ends the coordinator's event sequence with a fatal
abort. -/

/-- Observable events of the coordinator, the map workers and the reduce
worker. -/
inductive Ev where
  | createSplit (i : Nat)        -- parent: fopen(split-i, "w") + copy loop, lines 51-66
  | forkMap (i : Nat) (pid : Int)   -- parent: fork() for map worker i, line 81
  | recordMapPid (i : Nat) (pid : Int)  -- parent: result->map_worker_pid[i] = pid, line 111
  | forkAbort (i : Nat)          -- parent: EXIT_ERROR on fork failure, line 108
  | waitMap (i : Nat)            -- parent: waitpid(map_worker_pids[i], ..), line 117
  | logMapFail (i : Nat)         -- parent: fprintf "Map worker %d failed", line 119
  | childStart (i : Nat)         -- map worker i begins executing, line 82
  | openSplitRd (i : Nat)        -- child: open(split-i, O_RDONLY) succeeded, line 84
  | createItm (i : Nat)          -- child: open(mr-i.itm, O_WRONLY|O_CREAT|O_TRUNC), line 92
  | invokeMap (i : Nat)          -- child: spec->map_func(&split, intermediate_fd), line 98
  | childExit (i : Nat) (code : Int)  -- child: _exit / _EXIT_ERROR, lines 103-106
  | forkReduce (pid : Int)       -- parent: fork() for reduce worker, line 125
  | recordReducePid (pid : Int)  -- parent: result->reduce_worker_pid = pid, line 160
  | forkReduceAbort              -- parent: EXIT_ERROR on reduce fork failure, line 158
  | reduceStart                  -- reduce worker begins executing, line 126
  | openItmRd (i : Nat)          -- reduce child: open(mr-i.itm, O_RDONLY), line 134
  | createRst                    -- reduce child: open("mr.rst", ..O_CREAT..), line 140
  | invokeReduce                 -- reduce child: spec->reduce_func(..), line 146
  | reduceExit (code : Int)      -- reduce child: _exit / _EXIT_ERROR, lines 148-156
  | waitReduce                   -- parent: waitpid(reduce_worker_pid, ..), line 164
  | logReduceFail                -- parent: fprintf "Reduce worker ... failed", line 166
  deriving DecidableEq

/-- A `waitpid` status: whether the worker exited normally (`WIFEXITED`)
and, if so, its exit status (`WEXITSTATUS`). -/
structure WStatus where
  exited : Bool
  code : Int
  deriving DecidableEq

/-- Phase 1 of the coordinator (lines 47-71): create the split files. -/
def splitPhase (n : Nat) : List Ev := (List.range n).map Ev.createSplit

/-- Phase 2 (lines 80-113): fork each map worker and record its pid; a
negative fork result triggers EXIT_ERROR and ends the run. -/
def forkPhase (pids : Nat → Int) : List Nat → List Ev
  | [] => []
  | i :: rest =>
    if pids i < 0 then [Ev.forkAbort i]
    else Ev.forkMap i (pids i) :: Ev.recordMapPid i (pids i) :: forkPhase pids rest

/-- Whether some map-worker fork fails (decides the EXIT_ERROR path). -/
def anyForkFail (n : Nat) (pids : Nat → Int) : Bool :=
  (List.range n).any (fun i => pids i < 0)

/-- Phase 3 (lines 116-121): wait for the map workers in index order,
logging a diagnostic for each worker that exited normally with a nonzero
status. -/
def waitPhase (n : Nat) (mst : Nat → WStatus) : List Ev :=
  (List.range n).flatMap
    (fun i => Ev.waitMap i ::
      (if (mst i).exited = true ∧ (mst i).code ≠ 0 then [Ev.logMapFail i] else []))

/-- Phases 4-5 of the parent (lines 124-167): fork the reduce worker,
record its pid, wait for it, and log a diagnostic on a normally-exited
nonzero status; a negative fork result triggers EXIT_ERROR. -/
def reducePhase (rpid : Int) (rst : WStatus) : List Ev :=
  if rpid < 0 then [Ev.forkReduceAbort]
  else Ev.forkReduce rpid :: Ev.recordReducePid rpid :: Ev.waitReduce ::
    (if rst.exited = true ∧ rst.code ≠ 0 then [Ev.logReduceFail] else [])

/-- The coordinator's event sequence with a flag telling whether the
process was fatally aborted by EXIT_ERROR (modelled from the spec, see
above): the pair (events in program order, fatal?). -/
def coordRun (n : Nat) (pids : Nat → Int) (rpid : Int)
    (mst : Nat → WStatus) (rst : WStatus) : List Ev × Bool :=
  if anyForkFail n pids then (splitPhase n ++ forkPhase pids (List.range n), true)
  else (splitPhase n ++ forkPhase pids (List.range n) ++ waitPhase n mst ++
          reducePhase rpid rst,
        rpid < 0)

/-- The coordinator's event sequence. -/
def coordTrace (n : Nat) (pids : Nat → Int) (rpid : Int)
    (mst : Nat → WStatus) (rst : WStatus) : List Ev :=
  (coordRun n pids rpid mst rst).1

/-- Whether the coordinator process aborted fatally (nonzero exit). -/
def coordFatal (n : Nat) (pids : Nat → Int) (rpid : Int)
    (mst : Nat → WStatus) (rst : WStatus) : Bool :=
  (coordRun n pids rpid mst rst).2

/-- Outcome of one map worker's own system calls (an oracle): whether its
split open failed (line 87), its intermediate create failed (line 93), or
both succeeded and the map function returned `ret` (line 98). -/
inductive MapChildOutcome where
  | splitOpenFail
  | itmCreateFail
  | ran (ret : Int)
  deriving DecidableEq

/-- Map worker `i`'s event sequence (the child branch, lines 82-106);
`_EXIT_ERROR` exit codes are nonzero (modelled from the spec, see above),
written here as 1. -/
def mapChildTrace (i : Nat) : MapChildOutcome → List Ev
  | .splitOpenFail => [Ev.childStart i, Ev.childExit i 1]
  | .itmCreateFail => [Ev.childStart i, Ev.openSplitRd i, Ev.childExit i 1]
  | .ran ret =>
    [Ev.childStart i, Ev.openSplitRd i, Ev.createItm i, Ev.invokeMap i,
     Ev.childExit i (if ret = 0 then 0 else 1)]

/-- The exit code a map worker terminates with under the given outcome. -/
def mapChildExitCode : MapChildOutcome → Int
  | .splitOpenFail => 1
  | .itmCreateFail => 1
  | .ran ret => if ret = 0 then 0 else 1

/-- Outcome of the reduce worker's own system calls (an oracle): the first
intermediate open that fails (line 135), a result-create failure
(line 141), or a full run with the reduce function returning `ret`. -/
inductive ReduceOutcome where
  | itmOpenFail (k : Nat)
  | rstCreateFail
  | ran (ret : Int)
  deriving DecidableEq

/-- The reduce worker's event sequence (the child branch, lines 126-156). -/
def reduceChildTrace (n : Nat) : ReduceOutcome → List Ev
  | .itmOpenFail k => Ev.reduceStart :: (List.range (min k n)).map Ev.openItmRd ++ [Ev.reduceExit 1]
  | .rstCreateFail => Ev.reduceStart :: (List.range n).map Ev.openItmRd ++ [Ev.reduceExit 1]
  | .ran ret =>
    Ev.reduceStart :: (List.range n).map Ev.openItmRd ++
      [Ev.createRst, Ev.invokeReduce, Ev.reduceExit (if ret = 0 then 0 else 1)]

/-- The exit code the reduce worker terminates with. -/
def reduceChildExitCode : ReduceOutcome → Int
  | .itmOpenFail _ => 1
  | .rstCreateFail => 1
  | .ran ret => if ret = 0 then 0 else 1

/-- Classification: events performed by the coordinator process. -/
def isParentEv : Ev → Bool
  | .createSplit _ => true
  | .forkMap _ _ => true
  | .recordMapPid _ _ => true
  | .forkAbort _ => true
  | .waitMap _ => true
  | .logMapFail _ => true
  | .forkReduce _ => true
  | .recordReducePid _ => true
  | .forkReduceAbort => true
  | .waitReduce => true
  | .logReduceFail => true
  | _ => false

/-- Classification: events performed by map worker `i`. -/
def isMapChildEv (i : Nat) : Ev → Bool
  | .childStart j => i = j
  | .openSplitRd j => i = j
  | .createItm j => i = j
  | .invokeMap j => i = j
  | .childExit j _ => i = j
  | _ => false

/-- Classification: events performed by the reduce worker. -/
def isReduceChildEv : Ev → Bool
  | .reduceStart => true
  | .openItmRd _ => true
  | .createRst => true
  | .invokeReduce => true
  | .reduceExit _ => true
  | _ => false

/-- Events that create or write the intermediate artifact `mr-i.itm`:
its creation (O_CREAT|O_TRUNC) and the map invocation that writes it. -/
def writesItm (i : Nat) : Ev → Bool
  | .createItm j => i = j
  | .invokeMap j => i = j
  | _ => false

/-- A global schedule of the job on the success path of all forks: an
interleaving of the coordinator's events, each map worker's events and the
reduce worker's events, in which a worker's events follow its fork and its
exit precedes the `waitpid` return that reaps it. -/
def ValidSchedule (n : Nat) (pids : Nat → Int) (rpid : Int)
    (mst : Nat → WStatus) (rst : WStatus)
    (moc : Nat → MapChildOutcome) (roc : ReduceOutcome) (s : List Ev) : Prop :=
  (∀ i < n, 0 < pids i) ∧ 0 < rpid ∧
  s.filter isParentEv = coordTrace n pids rpid mst rst ∧
  (∀ i < n, s.filter (isMapChildEv i) = mapChildTrace i (moc i)) ∧
  s.filter isReduceChildEv = reduceChildTrace n roc ∧
  (∀ e ∈ s, isParentEv e = true ∨ isReduceChildEv e = true ∨
    ∃ i < n, isMapChildEv i e = true) ∧
  (∀ i < n, s.indexOf (Ev.forkMap i (pids i)) < s.indexOf (Ev.childStart i)) ∧
  (∀ i < n, s.indexOf (Ev.childExit i (mapChildExitCode (moc i))) < s.indexOf (Ev.waitMap i)) ∧
  s.indexOf (Ev.forkReduce rpid) < s.indexOf Ev.reduceStart ∧
  s.indexOf (Ev.reduceExit (reduceChildExitCode roc)) < s.indexOf Ev.waitReduce

/-- Extracts the index of a map-worker wait event. -/
def waitMapIdx : Ev → Option Nat
  | .waitMap i => some i
  | _ => none

/-- Extracts (index, pid) from a map-pid recording event. -/
def recMapEntry : Ev → Option (Nat × Int)
  | .recordMapPid i p => some (i, p)
  | _ => none

/-- A sequential schedule for a 1-split job: the map worker runs to
completion immediately after its fork, then the reduce worker does. -/
def sched0 : List Ev :=
  [Ev.createSplit 0,
   Ev.forkMap 0 1, Ev.recordMapPid 0 1,
   Ev.childStart 0, Ev.openSplitRd 0, Ev.createItm 0, Ev.invokeMap 0, Ev.childExit 0 0,
   Ev.waitMap 0,
   Ev.forkReduce 2, Ev.recordReducePid 2,
   Ev.reduceStart, Ev.openItmRd 0, Ev.createRst, Ev.invokeReduce, Ev.reduceExit 0,
   Ev.waitReduce]

/-- An input whose single record (1500 bytes plus newline) exceeds the
partitioner's 1024-byte read buffer. -/
def longInput : List Nat := List.replicate 1500 97 ++ [NL]

/-! ## Partitioner lemmas -/

lemma takeWhile_length_le (p : Nat → Bool) : ∀ l : List Nat, (l.takeWhile p).length ≤ l.length := by
  intro l
  induction l with
  | nil => simp
  | cons a t ih =>
    by_cases h : p a
    · simp only [List.takeWhile_cons, h, if_true, List.length_cons]
      omega
    · simp only [List.takeWhile_cons, h, if_false, List.length_nil]
      simp

lemma dropWhile_head_false (p : Nat → Bool) :
    ∀ (l : List Nat) (b : Nat) (d' : List Nat), l.dropWhile p = b :: d' → p b = false := by
  intro l
  induction l with
  | nil => intro b d' h; simp [List.dropWhile] at h
  | cons a t ih =>
    intro b d' h
    by_cases hp : p a
    · rw [List.dropWhile_cons_of_pos hp] at h
      exact ih b d' h
    · rw [List.dropWhile_cons_of_neg hp] at h
      cases h
      exact Bool.eq_false_iff.mpr hp

lemma ShortLines_drop {l : List Nat} (h : ShortLines l) (m : Nat) : ShortLines (l.drop m) := by
  intro i hi
  rw [List.drop_drop] at hi ⊢
  exact h (m + i) hi

lemma EndsNL_drop {l : List Nat} (h : EndsNL l) (m : Nat) : EndsNL (l.drop m) := by
  rcases h with rfl | hlast
  · left
    simp
  · by_cases hd : l.drop m = []
    · left
      exact hd
    · right
      have hsplit := List.take_append_drop m l
      calc (l.drop m).getLast? = (l.take m ++ l.drop m).getLast? :=
            (List.getLast?_append_of_ne_nil _ hd).symm
        _ = l.getLast? := by rw [hsplit]
        _ = some NL := hlast

lemma ShortLines_of_short {l : List Nat} (h : l.length ≤ 1022) : ShortLines l := by
  intro i hi
  rw [List.length_drop] at hi
  omega

lemma takeWhile_nl_le {l : List Nat} (h : ShortLines l) :
    (l.takeWhile (fun b => b ≠ NL)).length ≤ 1022 := by
  by_contra hgt
  push_neg at hgt
  have hkle := takeWhile_length_le (fun b => decide (b ≠ NL)) l
  have hlen : 1023 ≤ l.length := by omega
  have hmem := h 0 (by simpa using hlen)
  simp only [List.drop_zero] at hmem
  have htake : l.take 1023 = (l.takeWhile (fun b => b ≠ NL)).take 1023 := by
    conv_lhs => rw [← List.takeWhile_append_dropWhile (fun b => decide (b ≠ NL)) l]
    rw [List.take_append_eq_append_take]
    have hz : 1023 - (l.takeWhile (fun b => decide (b ≠ NL))).length = 0 := by omega
    rw [hz]
    simp
  rw [htake] at hmem
  have hmem2 : NL ∈ l.takeWhile (fun b => b ≠ NL) := List.mem_of_mem_take hmem
  have := List.mem_takeWhile_imp hmem2
  simp at this

lemma fgetsLen_le (input : List Nat) : fgetsLen input ≤ input.length := by
  unfold fgetsLen
  split_ifs with h
  · omega
  · exact Nat.min_le_right 1023 input.length

lemma fgetsLen_pos {input : List Nat} (h : input ≠ []) : 0 < fgetsLen input := by
  have hpos : 0 < input.length := List.length_pos.mpr h
  unfold fgetsLen
  split_ifs with hc
  · omega
  · rw [Nat.lt_min]
    exact ⟨by norm_num, hpos⟩

lemma fgetsChunk_length (input : List Nat) : (fgetsChunk input).length = fgetsLen input := by
  unfold fgetsChunk
  rw [List.length_take]
  exact Nat.min_eq_left (fgetsLen_le input)

lemma chunk_step {input : List Nat} (hs : ShortLines input) :
    (fgetsChunk input).getLast? = some NL ∨ input.drop (fgetsLen input) = [] := by
  have hk := takeWhile_nl_le hs
  by_cases hlt : (input.takeWhile (fun b => b ≠ NL)).length < input.length
  · left
    set t := input.takeWhile (fun b => b ≠ NL) with ht
    have hfl : fgetsLen input = t.length + 1 := by
      unfold fgetsLen
      rw [← ht, if_pos ⟨hlt, hk⟩]
    have hsplit : t ++ input.dropWhile (fun b => b ≠ NL) = input := by
      rw [ht]
      exact List.takeWhile_append_dropWhile _ input
    have hdne : input.dropWhile (fun b => b ≠ NL) ≠ [] := by
      intro hnil
      rw [hnil, List.append_nil] at hsplit
      rw [← hsplit] at hlt
      omega
    obtain ⟨b, d', hd⟩ := List.exists_cons_of_ne_nil hdne
    have hb := dropWhile_head_false (fun b => decide (b ≠ NL)) input b d' hd
    have hbNL : b = NL := by simpa using hb
    have hinput : input = t ++ b :: d' := by rw [← hsplit, hd]
    have htake : input.take (t.length + 1) = t ++ [b] := by
      conv_lhs => rw [hinput]
      rw [List.take_append_eq_append_take,
        List.take_of_length_le (Nat.le_succ t.length)]
      have h2 : t.length + 1 - t.length = 1 := by omega
      rw [h2]
      rfl
    unfold fgetsChunk
    rw [hfl, htake, hbNL]
    exact List.getLast?_concat _
  · right
    have hkle := takeWhile_length_le (fun b => decide (b ≠ NL)) input
    have hfl : fgetsLen input = input.length := by
      unfold fgetsLen
      rw [if_neg (by omega)]
      exact Nat.min_eq_right (by omega)
    rw [hfl, List.drop_length]



lemma splitLoop_nil (sz fuel bytes : Nat) : splitLoop sz fuel bytes [] = ([], []) := by
  cases fuel with
  | zero => rfl
  | succ f =>
    unfold splitLoop
    split_ifs <;> rfl

lemma splitLoop_spec (sz : Nat) :
    ∀ fuel bytes input, input.length ≤ fuel → ShortLines input →
      (splitLoop sz fuel bytes input).1 ++ (splitLoop sz fuel bytes input).2 = input ∧
      ((splitLoop sz fuel bytes input).1 = [] ∨
        ((splitLoop sz fuel bytes input).1).getLast? = some NL ∨
        (splitLoop sz fuel bytes input).2 = []) ∧
      (sz ≤ bytes + ((splitLoop sz fuel bytes input).1).length ∨
        (splitLoop sz fuel bytes input).2 = []) ∧
      ((splitLoop sz fuel bytes input).1 = [] → sz ≤ bytes ∨ input = []) := by
  intro fuel
  induction fuel with
  | zero =>
    intro bytes input hf hs
    have hnil : input = [] := List.length_eq_zero.mp (by omega)
    subst hnil
    refine ⟨rfl, Or.inl rfl, Or.inr rfl, fun _ => Or.inr rfl⟩
  | succ f ih =>
    intro bytes input hf hs
    by_cases hb : bytes < sz
    · cases input with
      | nil =>
        rw [splitLoop_nil]
        exact ⟨rfl, Or.inl rfl, Or.inr rfl, fun _ => Or.inr rfl⟩
      | cons x rest =>
        have hne : (x :: rest) ≠ [] := by simp
        have hpos := fgetsLen_pos hne
        have hle := fgetsLen_le (x :: rest)
        have hflen : ((x :: rest).drop (fgetsLen (x :: rest))).length ≤ f := by
          rw [List.length_drop]
          simp only [List.length_cons] at hf ⊢
          omega
        have hssub := ShortLines_drop hs (fgetsLen (x :: rest))
        obtain ⟨ihJ, ihE, ihB, ihZ⟩ :=
          ih (bytes + fgetsLen (x :: rest)) ((x :: rest).drop (fgetsLen (x :: rest))) hflen hssub
        have hstep1 : (splitLoop sz (f + 1) bytes (x :: rest)).1 =
            fgetsChunk (x :: rest) ++
              (splitLoop sz f (bytes + fgetsLen (x :: rest))
                ((x :: rest).drop (fgetsLen (x :: rest)))).1 := by
          simp only [splitLoop, if_pos hb]
        have hstep2 : (splitLoop sz (f + 1) bytes (x :: rest)).2 =
            (splitLoop sz f (bytes + fgetsLen (x :: rest))
              ((x :: rest).drop (fgetsLen (x :: rest)))).2 := by
          simp only [splitLoop, if_pos hb]
        have hchne : fgetsChunk (x :: rest) ≠ [] := by
          intro hcnil
          have := fgetsChunk_length (x :: rest)
          rw [hcnil] at this
          simp at this
          omega
        refine ⟨?_, ?_, ?_, ?_⟩
        · rw [hstep1, hstep2, List.append_assoc, ihJ]
          unfold fgetsChunk
          exact List.take_append_drop _ _
        · rw [hstep1, hstep2]
          rcases ihE with hp1 | hpNL | hp2
          · rw [hp1, List.append_nil]
            rcases chunk_step hs with hNL | hdrop
            · exact Or.inr (Or.inl hNL)
            · rw [hdrop, splitLoop_nil] at ihJ ⊢
              exact Or.inr (Or.inr rfl)
          · refine Or.inr (Or.inl ?_)
            rw [List.getLast?_append_of_ne_nil _ ?_]
            · exact hpNL
            · intro hnil
              rw [hnil] at hpNL
              simp at hpNL
          · exact Or.inr (Or.inr hp2)
        · rw [hstep1, hstep2]
          rcases ihB with hsz | hp2
          · left
            rw [List.length_append, fgetsChunk_length]
            omega
          · exact Or.inr hp2
        · rw [hstep1]
          intro hout
          exact absurd (List.append_eq_nil.mp hout).1 hchne
    · have hstop : splitLoop sz (f + 1) bytes input = ([], input) := by
        cases input with
        | nil =>
          rw [splitLoop_nil]
        | cons x rest =>
          simp only [splitLoop, if_neg hb]
      rw [hstop]
      exact ⟨rfl, Or.inl rfl, Or.inl (by omega), fun _ => Or.inl (by omega)⟩



lemma writeSplit_spec (sz : Nat) {input : List Nat} (hs : ShortLines input) :
    (writeSplit sz input).1 ++ (writeSplit sz input).2 = input ∧
    ((writeSplit sz input).1 = [] ∨ ((writeSplit sz input).1).getLast? = some NL ∨
      (writeSplit sz input).2 = []) ∧
    (sz ≤ ((writeSplit sz input).1).length ∨ (writeSplit sz input).2 = []) ∧
    ((writeSplit sz input).1 = [] → sz = 0 ∨ input = []) := by
  obtain ⟨h1, h2, h3, h4⟩ :=
    splitLoop_spec sz (input.length + 1) 0 input (by omega) hs
  exact ⟨h1, h2, by simpa using h3, fun h => by
    rcases h4 h with h | h
    · exact Or.inl (by omega)
    · exact Or.inr h⟩

lemma writeSplit_nil (sz : Nat) : writeSplit sz [] = ([], []) := by
  unfold writeSplit
  exact splitLoop_nil sz 1 0

lemma writeSplit_rem_drop (sz : Nat) {input : List Nat} (hs : ShortLines input) :
    (writeSplit sz input).2 = input.drop ((writeSplit sz input).1).length := by
  have h1 := (writeSplit_spec sz hs).1
  have h2 : ((writeSplit sz input).1 ++ (writeSplit sz input).2).drop
      ((writeSplit sz input).1).length = input.drop ((writeSplit sz input).1).length := by
    rw [h1]
  rw [List.drop_left] at h2
  exact h2

lemma stageRem_zero (sz : Nat) (input : List Nat) : stageRem sz 0 input = input := rfl

lemma stageRem_front (sz k : Nat) (input : List Nat) :
    stageRem sz (k + 1) input = stageRem sz k ((writeSplit sz input).2) := rfl

lemma stageRem_suffix {sz : Nat} : ∀ (k : Nat) (input : List Nat), ShortLines input →
    ∃ m, stageRem sz k input = input.drop m := by
  intro k
  induction k with
  | zero => exact fun input _ => ⟨0, rfl⟩
  | succ j ih =>
    intro input hs
    rw [stageRem_front]
    have hrd := writeSplit_rem_drop sz hs
    have hs2 : ShortLines ((writeSplit sz input).2) := by
      rw [hrd]
      exact ShortLines_drop hs _
    obtain ⟨m, hm⟩ := ih ((writeSplit sz input).2) hs2
    refine ⟨((writeSplit sz input).1).length + m, ?_⟩
    rw [hm, hrd, List.drop_drop, Nat.add_comm]

lemma ShortLines_stageRem {sz : Nat} {input : List Nat} (hs : ShortLines input) (k : Nat) :
    ShortLines (stageRem sz k input) := by
  obtain ⟨m, hm⟩ := stageRem_suffix k input hs
  rw [hm]
  exact ShortLines_drop hs m

lemma EndsNL_stageRem {sz : Nat} {input : List Nat} (hs : ShortLines input)
    (hnl : EndsNL input) (k : Nat) : EndsNL (stageRem sz k input) := by
  obtain ⟨m, hm⟩ := stageRem_suffix k input hs
  rw [hm]
  exact EndsNL_drop hnl m

lemma stageRem_back {sz : Nat} :
    ∀ (k : Nat) (input : List Nat),
      stageRem sz (k + 1) input = (writeSplit sz (stageRem sz k input)).2 := by
  intro k
  induction k with
  | zero => intro input; rfl
  | succ j ih =>
    intro input
    rw [stageRem_front, ih, stageRem_front]

lemma stageRem_nil_succ {sz : Nat} {input : List Nat} {k : Nat}
    (h : stageRem sz k input = []) : stageRem sz (k + 1) input = [] := by
  rw [stageRem_back, h, writeSplit_nil]

lemma stageRem_nil_mono {sz : Nat} {input : List Nat} (k : Nat)
    (h : stageRem sz k input = []) : ∀ j, k ≤ j → stageRem sz j input = [] := by
  intro j hj
  obtain ⟨d, rfl⟩ : ∃ d, j = k + d := ⟨j - k, by omega⟩
  clear hj
  induction d with
  | zero => exact h
  | succ e ih =>
    have : k + (e + 1) = (k + e) + 1 := by omega
    rw [this]
    exact stageRem_nil_succ ih

lemma mrSplitsAux_length (sz : Nat) : ∀ (k : Nat) (input : List Nat),
    (mrSplitsAux sz k input).1.length = k := by
  intro k
  induction k with
  | zero => intro input; rfl
  | succ j ih =>
    intro input
    simp only [mrSplitsAux, List.length_cons, ih]

lemma split_getD {sz : Nat} : ∀ (i k : Nat) (input : List Nat), i < k →
    (mrSplitsAux sz k input).1.getD i [] = (writeSplit sz (stageRem sz i input)).1 := by
  intro i
  induction i with
  | zero =>
    intro k input hk
    cases k with
    | zero => omega
    | succ j => rfl
  | succ i ih =>
    intro k input hk
    cases k with
    | zero => omega
    | succ j =>
      have h1 : (mrSplitsAux sz (j + 1) input).1 =
          (writeSplit sz input).1 :: (mrSplitsAux sz j ((writeSplit sz input).2)).1 := rfl
      rw [h1]
      simp only [List.getD_cons_succ]
      rw [ih j ((writeSplit sz input).2) (by omega), stageRem_front]

lemma join_assemble (sz : Nat) : ∀ (k : Nat) (input : List Nat), ShortLines input →
    (mrSplitsAux sz k input).1.flatten ++ stageRem sz k input = input := by
  intro k
  induction k with
  | zero => intro input _; rfl
  | succ j ih =>
    intro input hs
    have h1 : (mrSplitsAux sz (j + 1) input).1 =
        (writeSplit sz input).1 :: (mrSplitsAux sz j ((writeSplit sz input).2)).1 := rfl
    have hs2 : ShortLines ((writeSplit sz input).2) := by
      rw [writeSplit_rem_drop sz hs]
      exact ShortLines_drop hs _
    rw [h1, List.flatten_cons, stageRem_front, List.append_assoc,
      ih ((writeSplit sz input).2) hs2]
    exact (writeSplit_spec sz hs).1

lemma join_ends (sz : Nat) : ∀ (k : Nat) (input : List Nat), ShortLines input →
    (mrSplitsAux sz k input).1.flatten = [] ∨
    ((mrSplitsAux sz k input).1.flatten).getLast? = some NL ∨
    stageRem sz k input = [] := by
  intro k
  induction k with
  | zero => intro input _; exact Or.inl rfl
  | succ j ih =>
    intro input hs
    have h1 : (mrSplitsAux sz (j + 1) input).1 =
        (writeSplit sz input).1 :: (mrSplitsAux sz j ((writeSplit sz input).2)).1 := rfl
    have hs2 : ShortLines ((writeSplit sz input).2) := by
      rw [writeSplit_rem_drop sz hs]
      exact ShortLines_drop hs _
    rw [h1, List.flatten_cons, stageRem_front]
    rcases ih ((writeSplit sz input).2) hs2 with hfl | hJN | hrem
    · rw [hfl, List.append_nil]
      rcases (writeSplit_spec sz hs).2.1 with ho | ho | ho
      · exact Or.inl ho
      · exact Or.inr (Or.inl ho)
      · refine Or.inr (Or.inr ?_)
        rw [ho]
        exact stageRem_nil_mono 0 rfl j (by omega)
    · refine Or.inr (Or.inl ?_)
      rw [List.getLast?_append_of_ne_nil _ ?_]
      · exact hJN
      · intro hnil
        rw [hnil] at hJN
        simp at hJN
    · exact Or.inr (Or.inr hrem)



lemma writeSplit_zero (input : List Nat) : writeSplit 0 input = ([], input) := by
  unfold writeSplit
  cases input with
  | nil => exact splitLoop_nil 0 1 0
  | cons x rest =>
    show splitLoop 0 ((x :: rest).length - 1 + 1) 0 (x :: rest) = ([], x :: rest)
    unfold splitLoop
    rw [if_neg (by omega)]

/-- C1 (amended): for inputs with no NUL byte, records of at most 1023
bytes, and a final newline, every split 0..N-2 holds only whole
newline-terminated records, and holds at least floor(totalBytes/N) bytes
unless the input was already exhausted, in which case all later splits are
empty. -/
theorem claim_C1_thm (n : Nat) (input : List Nat) (_hn : 2 ≤ n) (_h0 : NulFree input)
    (hs : ShortLines input) (hnl : EndsNL input) (i : Nat) (hi : i + 2 ≤ n) :
    ((mrSplits n input).getD i [] = [] ∨
      ((mrSplits n input).getD i []).getLast? = some NL) ∧
    (input.length / n ≤ ((mrSplits n input).getD i []).length ∨
      (stageRem (input.length / n) (i + 1) input = [] ∧
        ∀ j, i < j → j < n → (mrSplits n input).getD j [] = [])) := by
  have hgd : (mrSplits n input).getD i [] =
      (writeSplit (input.length / n) (stageRem (input.length / n) i input)).1 :=
    split_getD i n input (by omega)
  have hscur : ShortLines (stageRem (input.length / n) i input) := ShortLines_stageRem hs i
  have hncur : EndsNL (stageRem (input.length / n) i input) := EndsNL_stageRem hs hnl i
  obtain ⟨sJ, sE, sB, sZ⟩ := writeSplit_spec (input.length / n) hscur
  have hrem : (writeSplit (input.length / n) (stageRem (input.length / n) i input)).2 =
      stageRem (input.length / n) (i + 1) input := (stageRem_back i input).symm
  constructor
  · rw [hgd]
    rcases sE with h | h | h
    · exact Or.inl h
    · exact Or.inr h
    · rw [h, List.append_nil] at sJ
      rcases hncur with hcur | hcur
      · exact Or.inl (sJ.trans hcur)
      · exact Or.inr (by rw [sJ]; exact hcur)
  · rcases sB with h | h
    · left
      rw [hgd]
      exact h
    · right
      rw [hrem] at h
      refine ⟨h, ?_⟩
      intro j hij hjn
      have hrj : stageRem (input.length / n) j input = [] :=
        stageRem_nil_mono (i + 1) h j (by omega)
      have hgdj : (mrSplits n input).getD j [] =
          (writeSplit (input.length / n) (stageRem (input.length / n) j input)).1 :=
        split_getD j n input hjn
      rw [hgdj, hrj, writeSplit_nil]

/-- C2 (amended): for NUL-free inputs whose records are at most 1023 bytes,
the concatenation of all splits is a prefix of the input ending at a record
boundary or at end-of-file, and no record is split across two splits. -/
theorem claim_C2_thm (n : Nat) (input : List Nat) (_hn : 1 ≤ n) (_h0 : NulFree input)
    (hs : ShortLines input) :
    (∃ k, (mrSplits n input).flatten = input.take k ∧
      (k = input.length ∨ (mrSplits n input).flatten = [] ∨
        ((mrSplits n input).flatten).getLast? = some NL)) ∧
    (∀ i, i + 1 < n → (mrSplits n input).getD (i + 1) [] ≠ [] →
      ((mrSplits n input).getD i []).getLast? = some NL) := by
  have hJ := join_assemble (input.length / n) n input hs
  constructor
  · refine ⟨((mrSplitsAux (input.length / n) n input).1.flatten).length, ?_, ?_⟩
    · unfold mrSplits
      have htk : input.take ((mrSplitsAux (input.length / n) n input).1.flatten).length =
          ((mrSplitsAux (input.length / n) n input).1.flatten ++
            stageRem (input.length / n) n input).take
              ((mrSplitsAux (input.length / n) n input).1.flatten).length := by
        rw [hJ]
      rw [htk, List.take_left]
    · rcases join_ends (input.length / n) n input hs with h | h | h
      · exact Or.inr (Or.inl h)
      · exact Or.inr (Or.inr h)
      · left
        rw [h, List.append_nil] at hJ
        rw [hJ]
  · intro i hi1 hne1
    have hgd1 : (mrSplits n input).getD (i + 1) [] =
        (writeSplit (input.length / n) (stageRem (input.length / n) (i + 1) input)).1 :=
      split_getD (i + 1) n input (by omega)
    have hgd0 : (mrSplits n input).getD i [] =
        (writeSplit (input.length / n) (stageRem (input.length / n) i input)).1 :=
      split_getD i n input (by omega)
    rw [hgd1] at hne1
    have hcur1_ne : stageRem (input.length / n) (i + 1) input ≠ [] := by
      intro hcur
      rw [hcur, writeSplit_nil] at hne1
      exact hne1 rfl
    have hsz_pos : input.length / n ≠ 0 := by
      intro hsz
      rw [hsz, writeSplit_zero] at hne1
      exact hne1 rfl
    have hscur : ShortLines (stageRem (input.length / n) i input) := ShortLines_stageRem hs i
    obtain ⟨sJ, sE, sB, sZ⟩ := writeSplit_spec (input.length / n) hscur
    have hrem : (writeSplit (input.length / n) (stageRem (input.length / n) i input)).2 =
        stageRem (input.length / n) (i + 1) input := (stageRem_back i input).symm
    rw [hgd0]
    rcases sE with h | h | h
    · exfalso
      rcases sZ h with hz | hz
      · exact hsz_pos hz
      · apply hcur1_ne
        rw [← hrem, hz, writeSplit_nil]
    · exact h
    · exfalso
      rw [hrem] at h
      exact hcur1_ne h

/-! ## word_finder_map lemmas -/

lemma wfGo_append (target acc xs ys : List Nat) :
    wfGo target acc (xs ++ ys) = wfGo target acc xs ++ wfGo target (wfAcc acc xs) ys := by
  induction xs generalizing acc with
  | nil => simp [wfGo, wfAcc]
  | cons c rest ih =>
    simp only [List.cons_append, wfGo, wfAcc]
    by_cases hc : c = NL ∨ acc.length = 1023
    · rw [if_pos hc, if_pos hc, if_pos hc]
      simp only [List.append_eq]
      rw [ih]
      simp
    · rw [if_neg hc, if_neg hc, if_neg hc]
      simp only [List.append_eq]
      rw [ih]

lemma wfAcc_append (acc xs ys : List Nat) :
    wfAcc acc (xs ++ ys) = wfAcc (wfAcc acc xs) ys := by
  induction xs generalizing acc with
  | nil => simp [wfAcc]
  | cons c rest ih =>
    simp only [List.cons_append, wfAcc]
    by_cases hc : c = NL ∨ acc.length = 1023
    · rw [if_pos hc, if_pos hc]
      simp only [List.append_eq]
      rw [ih]
    · rw [if_neg hc, if_neg hc]
      simp only [List.append_eq]
      rw [ih]

lemma wfGo_no_flush (target : List Nat) :
    ∀ tail acc : List Nat, (∀ b ∈ tail, b ≠ NL) → acc.length + tail.length ≤ 1023 →
      wfGo target acc tail = [] := by
  intro tail
  induction tail with
  | nil => intro acc _ _; rfl
  | cons c rest ih =>
    intro acc hnl hlen
    have hc : ¬ (c = NL ∨ acc.length = 1023) := by
      rintro (h | h)
      · exact hnl c (by simp) h
      · simp at hlen
        omega
    simp only [wfGo, if_neg hc]
    refine ih (acc ++ [c]) (fun b hb => hnl b (by simp [hb])) ?_
    simp at hlen ⊢
    omega

/-! ## Coordinator-trace lemmas -/

lemma anyForkFail_eq_false {n : Nat} {pids : Nat → Int} (h : ∀ i < n, 0 < pids i) :
    anyForkFail n pids = false := by
  simp only [anyForkFail, List.any_eq_false, List.mem_range, decide_eq_true_eq]
  intro i hi
  have := h i hi
  omega

lemma coordTrace_ok {n : Nat} {pids : Nat → Int} {rpid : Int} {mst : Nat → WStatus}
    {rst : WStatus} (h : ∀ i < n, 0 < pids i) (hr : 0 < rpid) :
    coordTrace n pids rpid mst rst =
      splitPhase n ++ forkPhase pids (List.range n) ++ waitPhase n mst ++
        (Ev.forkReduce rpid :: Ev.recordReducePid rpid :: Ev.waitReduce ::
          (if rst.exited = true ∧ rst.code ≠ 0 then [Ev.logReduceFail] else [])) := by
  unfold coordTrace coordRun reducePhase
  rw [anyForkFail_eq_false h]
  simp only [Bool.false_eq_true, if_false]
  rw [if_neg (by omega)]

lemma forkPhase_ok {pids : Nat → Int} {l : List Nat} (h : ∀ i ∈ l, 0 < pids i) :
    forkPhase pids l =
      l.flatMap (fun i => [Ev.forkMap i (pids i), Ev.recordMapPid i (pids i)]) := by
  induction l with
  | nil => rfl
  | cons a t ih =>
    have ha : 0 < pids a := h a (by simp)
    simp only [forkPhase, List.flatMap_cons]
    rw [if_neg (by omega), ih (fun i hi => h i (by simp [hi]))]
    rfl

lemma mem_forkPhase_ok {pids : Nat → Int} {l : List Nat} (h : ∀ i ∈ l, 0 < pids i)
    {e : Ev} :
    e ∈ forkPhase pids l ↔
      ∃ i ∈ l, e = Ev.forkMap i (pids i) ∨ e = Ev.recordMapPid i (pids i) := by
  rw [forkPhase_ok h]
  simp [List.mem_flatMap]

lemma mem_waitPhase {n : Nat} {mst : Nat → WStatus} {e : Ev} :
    e ∈ waitPhase n mst ↔
      ∃ i < n, e = Ev.waitMap i ∨
        (e = Ev.logMapFail i ∧ (mst i).exited = true ∧ (mst i).code ≠ 0) := by
  simp only [waitPhase, List.mem_flatMap, List.mem_range, List.mem_cons]
  constructor
  · rintro ⟨i, hi, hmem | hrest⟩
    · exact ⟨i, hi, Or.inl hmem⟩
    · by_cases hc : (mst i).exited = true ∧ (mst i).code ≠ 0
      · rw [if_pos hc] at hrest
        simp at hrest
        exact ⟨i, hi, Or.inr ⟨hrest, hc⟩⟩
      · rw [if_neg hc] at hrest
        simp at hrest
  · rintro ⟨i, hi, rfl | ⟨rfl, hc⟩⟩
    · exact ⟨i, hi, Or.inl rfl⟩
    · exact ⟨i, hi, Or.inr (by rw [if_pos hc]; simp)⟩

lemma mem_splitPhase {n : Nat} {e : Ev} :
    e ∈ splitPhase n ↔ ∃ i < n, e = Ev.createSplit i := by
  simp [splitPhase, eq_comm]

lemma filterMap_flatMap' {α β γ : Type} (l : List α) (g : α → List β) (f : β → Option γ) :
    (l.flatMap g).filterMap f = l.flatMap (fun a => (g a).filterMap f) := by
  induction l with
  | nil => rfl
  | cons a t ih => simp [List.flatMap_cons, List.filterMap_append, ih]

lemma waitMapIdx_splitPhase {n : Nat} : (splitPhase n).filterMap waitMapIdx = [] := by
  simp only [splitPhase, List.filterMap_map]
  have hc : (waitMapIdx ∘ Ev.createSplit) = fun _ => none := rfl
  rw [hc]
  simp

lemma waitMapIdx_forkPhase {pids : Nat → Int} {l : List Nat} (h : ∀ i ∈ l, 0 < pids i) :
    (forkPhase pids l).filterMap waitMapIdx = [] := by
  rw [forkPhase_ok h, filterMap_flatMap']
  simp [waitMapIdx]

lemma waitMapIdx_waitPhase {n : Nat} {mst : Nat → WStatus} :
    (waitPhase n mst).filterMap waitMapIdx = List.range n := by
  unfold waitPhase
  rw [filterMap_flatMap']
  have hone : ∀ i, ((Ev.waitMap i ::
      (if (mst i).exited = true ∧ (mst i).code ≠ 0 then [Ev.logMapFail i] else [])).filterMap
        waitMapIdx) = [i] := by
    intro i
    by_cases hc : (mst i).exited = true ∧ (mst i).code ≠ 0 <;>
      simp [hc, waitMapIdx, List.filterMap_cons]
  simp only [hone]
  simp

lemma flatMap_singletonF {α β : Type} (g : α → β) (l : List α) :
    (l.flatMap fun a => [g a]) = l.map g := by
  induction l with
  | nil => rfl
  | cons a t ih => simp [ih]

lemma recMapEntry_splitPhase {n : Nat} : (splitPhase n).filterMap recMapEntry = [] := by
  simp only [splitPhase, List.filterMap_map]
  have hc : (recMapEntry ∘ Ev.createSplit) = fun _ => none := rfl
  rw [hc]
  simp

lemma recMapEntry_forkPhase {pids : Nat → Int} {l : List Nat} (h : ∀ i ∈ l, 0 < pids i) :
    (forkPhase pids l).filterMap recMapEntry = l.map (fun i => (i, pids i)) := by
  rw [forkPhase_ok h, filterMap_flatMap']
  have hone : ∀ i : Nat, ([Ev.forkMap i (pids i), Ev.recordMapPid i (pids i)].filterMap
      recMapEntry) = [(i, pids i)] := fun i => rfl
  simp only [hone]
  exact flatMap_singletonF (fun i => (i, pids i)) l

lemma recMapEntry_waitPhase {n : Nat} {mst : Nat → WStatus} :
    (waitPhase n mst).filterMap recMapEntry = [] := by
  unfold waitPhase
  rw [filterMap_flatMap']
  have hone : ∀ i, ((Ev.waitMap i ::
      (if (mst i).exited = true ∧ (mst i).code ≠ 0 then [Ev.logMapFail i] else [])).filterMap
        recMapEntry) = [] := by
    intro i
    by_cases hc : (mst i).exited = true ∧ (mst i).code ≠ 0 <;>
      simp [hc, recMapEntry, List.filterMap_cons]
  simp only [hone]
  simp

lemma range_split {i n : Nat} (h : i < n) :
    ∃ z, List.range n = List.range i ++ i :: z := by
  have hn : n = (i + 1) + (n - (i + 1)) := by omega
  refine ⟨(List.range (n - (i + 1))).map (fun j => (i + 1) + j), ?_⟩
  rw [hn, List.range_add, List.range_succ]
  simp

lemma forkPhase_append {pids : Nat → Int} {l₁ l₂ : List Nat}
    (h : ∀ i ∈ l₁, 0 < pids i) :
    forkPhase pids (l₁ ++ l₂) = forkPhase pids l₁ ++ forkPhase pids l₂ := by
  induction l₁ with
  | nil => rfl
  | cons a t ih =>
    have ha : 0 < pids a := h a (by simp)
    simp only [List.cons_append, forkPhase]
    rw [if_neg (by omega), if_neg (by omega)]
    simp only [List.append_eq]
    rw [ih (fun i hi => h i (by simp [hi]))]
    rfl

lemma mem_forkPhase {pids : Nat → Int} {l : List Nat} {e : Ev} (h : e ∈ forkPhase pids l) :
    ∃ i ∈ l, e = Ev.forkMap i (pids i) ∨ e = Ev.recordMapPid i (pids i) ∨
      e = Ev.forkAbort i := by
  induction l with
  | nil => simp [forkPhase] at h
  | cons a t ih =>
    simp only [forkPhase] at h
    by_cases ha : pids a < 0
    · rw [if_pos ha] at h
      simp at h
      exact ⟨a, by simp, Or.inr (Or.inr h)⟩
    · rw [if_neg ha] at h
      simp only [List.mem_cons] at h
      rcases h with h | h | h
      · exact ⟨a, by simp, Or.inl h⟩
      · exact ⟨a, by simp, Or.inr (Or.inl h)⟩
      · obtain ⟨i, hi, hc⟩ := ih h
        exact ⟨i, by simp [hi], hc⟩

lemma count_logHead (mst : Nat → WStatus) (i k : Nat) :
    ((Ev.waitMap i :: (if (mst i).exited = true ∧ (mst i).code ≠ 0
        then [Ev.logMapFail i] else [])).count (Ev.logMapFail k)) =
      if k = i ∧ (mst i).exited = true ∧ (mst i).code ≠ 0 then 1 else 0 := by
  by_cases hc : (mst i).exited = true ∧ (mst i).code ≠ 0
  · rw [if_pos hc]
    by_cases hk : k = i
    · subst hk
      rw [if_pos ⟨rfl, hc⟩]
      simp [List.count_cons]
    · rw [if_neg (fun hand => hk hand.1)]
      simp [List.count_cons, hk]
  · rw [if_neg hc, if_neg (fun hand => hc hand.2)]
    simp [List.count_cons]

lemma count_waitPhaseAux {mst : Nat → WStatus} {k : Nat} :
    ∀ l : List Nat, l.Nodup →
      ((l.flatMap (fun i => Ev.waitMap i ::
          (if (mst i).exited = true ∧ (mst i).code ≠ 0 then [Ev.logMapFail i] else []))).count
        (Ev.logMapFail k)) =
      if k ∈ l ∧ (mst k).exited = true ∧ (mst k).code ≠ 0 then 1 else 0 := by
  intro l
  induction l with
  | nil => simp
  | cons a t ih =>
    intro hnd
    have hndt : t.Nodup := (List.nodup_cons.mp hnd).2
    have hat : a ∉ t := (List.nodup_cons.mp hnd).1
    simp only [List.flatMap_cons, List.count_append, ih hndt, count_logHead mst a k]
    by_cases hk : k = a
    · subst hk
      have hkt : ¬ (k ∈ t ∧ (mst k).exited = true ∧ (mst k).code ≠ 0) :=
        fun hand => hat hand.1
      rw [if_neg hkt]
      by_cases hc : (mst k).exited = true ∧ (mst k).code ≠ 0
      · rw [if_pos ⟨rfl, hc⟩, if_pos (by exact ⟨by simp, hc⟩)]
      · rw [if_neg (fun hand => hc hand.2), if_neg (fun hand => hc hand.2)]
    · rw [if_neg (fun hand => hk hand.1)]
      simp only [List.mem_cons, hk, false_or, Nat.zero_add]

/-! ## Claim theorems -/

/-- C3: for every job on the success path of all forks, the coordinator
waits on the N transform workers strictly in spawn order 0..N-1 (the wait
events of the trace, in order, are exactly indices 0..N-1), and the
aggregate (reduce) worker is forked only after every transform worker has
been forked and waited upon, independent of the wait statuses. -/
theorem claim_C3_thm (n : Nat) (pids : Nat → Int) (rpid : Int) (mst : Nat → WStatus)
    (rst : WStatus) (hp : ∀ i < n, 0 < pids i) (hr : 0 < rpid) :
    (coordTrace n pids rpid mst rst).filterMap waitMapIdx = List.range n ∧
    ∃ A B, coordTrace n pids rpid mst rst = A ++ Ev.forkReduce rpid :: B ∧
      ∀ i < n, Ev.forkMap i (pids i) ∈ A ∧ Ev.waitMap i ∈ A := by
  rw [coordTrace_ok hp hr]
  constructor
  · simp only [List.filterMap_append, waitMapIdx_splitPhase,
      waitMapIdx_forkPhase (fun i hi => hp i (List.mem_range.mp hi)), waitMapIdx_waitPhase]
    by_cases hc : rst.exited = true ∧ rst.code ≠ 0 <;>
      simp [hc, waitMapIdx, List.filterMap_cons]
  · refine ⟨splitPhase n ++ forkPhase pids (List.range n) ++ waitPhase n mst,
      Ev.recordReducePid rpid :: Ev.waitReduce ::
        (if rst.exited = true ∧ rst.code ≠ 0 then [Ev.logReduceFail] else []),
      by simp, ?_⟩
    intro i hi
    constructor
    · have hm : Ev.forkMap i (pids i) ∈ forkPhase pids (List.range n) := by
        rw [mem_forkPhase_ok (fun j hj => hp j (List.mem_range.mp hj))]
        exact ⟨i, List.mem_range.mpr hi, Or.inl rfl⟩
      simp [hm]
    · have hm : Ev.waitMap i ∈ waitPhase n mst := by
        rw [mem_waitPhase]
        exact ⟨i, hi, Or.inl rfl⟩
      simp [hm]

/-- Witness for C3 at N = 2 with concrete pids and statuses. -/
theorem claim_C3_wit :
    (coordTrace 2 (fun i => (i : Int) + 1) 5 (fun _ => ⟨true, 0⟩) ⟨true, 0⟩).filterMap
      waitMapIdx = List.range 2 ∧
    ∃ A B, coordTrace 2 (fun i => (i : Int) + 1) 5 (fun _ => ⟨true, 0⟩) ⟨true, 0⟩ =
        A ++ Ev.forkReduce 5 :: B ∧
      ∀ i < 2, Ev.forkMap i ((i : Int) + 1) ∈ A ∧ Ev.waitMap i ∈ A :=
  claim_C3_thm 2 (fun i => (i : Int) + 1) 5 (fun _ => ⟨true, 0⟩) ⟨true, 0⟩
    (by decide) (by decide)

/-- C4: a fork failure aborts the whole run fatally (nonzero status), with
the abort diagnostic as the final event and no waits or reduce fork ever
performed; a map worker that terminates with a failure status is instead
non-fatal: exactly one diagnostic naming its index is logged, every worker
is still waited on, and the reduce worker is still forked. -/
theorem claim_C4_thm (n : Nat) (pids : Nat → Int) (rpid : Int) (mst : Nat → WStatus)
    (rst : WStatus) :
    (∀ j < n, pids j < 0 → (∀ i < j, 0 < pids i) →
      coordFatal n pids rpid mst rst = true ∧
      (coordTrace n pids rpid mst rst).getLast? = some (Ev.forkAbort j) ∧
      (∀ i, Ev.waitMap i ∉ coordTrace n pids rpid mst rst) ∧
      (∀ p, Ev.forkReduce p ∉ coordTrace n pids rpid mst rst)) ∧
    ((∀ i < n, 0 < pids i) → 0 < rpid →
      coordFatal n pids rpid mst rst = false ∧
      (∀ k < n, (coordTrace n pids rpid mst rst).count (Ev.logMapFail k) =
        (if (mst k).exited = true ∧ (mst k).code ≠ 0 then 1 else 0)) ∧
      (∀ i < n, Ev.waitMap i ∈ coordTrace n pids rpid mst rst) ∧
      Ev.forkReduce rpid ∈ coordTrace n pids rpid mst rst) := by
  constructor
  · intro j hj hneg hpos
    have hfail : anyForkFail n pids = true := by
      simp only [anyForkFail, List.any_eq_true, List.mem_range, decide_eq_true_eq]
      exact ⟨j, hj, hneg⟩
    obtain ⟨z, hz⟩ := range_split hj
    have hsplit : forkPhase pids (List.range n) =
        forkPhase pids (List.range j) ++ [Ev.forkAbort j] := by
      rw [hz, forkPhase_append (fun i hi => hpos i (List.mem_range.mp hi))]
      have habort : forkPhase pids (j :: z) = [Ev.forkAbort j] := by
        simp only [forkPhase]
        rw [if_pos hneg]
      rw [habort]
    have htr : coordTrace n pids rpid mst rst =
        splitPhase n ++ (forkPhase pids (List.range j) ++ [Ev.forkAbort j]) := by
      unfold coordTrace coordRun
      rw [hfail]
      simp only [if_true]
      rw [hsplit]
    have hfat : coordFatal n pids rpid mst rst = true := by
      unfold coordFatal coordRun
      rw [hfail]
      simp
    refine ⟨hfat, ?_, ?_, ?_⟩
    · rw [htr, ← List.append_assoc, List.getLast?_concat]
    · intro i
      rw [htr]
      simp only [List.mem_append, List.mem_singleton]
      rintro (h | h | h)
      · rw [mem_splitPhase] at h
        obtain ⟨a, _, ha⟩ := h
        exact absurd ha (by simp)
      · obtain ⟨a, _, ha | ha | ha⟩ := mem_forkPhase h <;> exact absurd ha (by simp)
      · exact absurd h (by simp)
    · intro p
      rw [htr]
      simp only [List.mem_append, List.mem_singleton]
      rintro (h | h | h)
      · rw [mem_splitPhase] at h
        obtain ⟨a, _, ha⟩ := h
        exact absurd ha (by simp)
      · obtain ⟨a, _, ha | ha | ha⟩ := mem_forkPhase h <;> exact absurd ha (by simp)
      · exact absurd h (by simp)
  · intro hp hr
    have hfat : coordFatal n pids rpid mst rst = false := by
      unfold coordFatal coordRun
      rw [anyForkFail_eq_false hp]
      simp only [Bool.false_eq_true, if_false]
      simp only [decide_eq_false_iff_not]
      omega
    refine ⟨hfat, ?_, ?_, ?_⟩
    · intro k hk
      rw [coordTrace_ok hp hr]
      have h1 : (splitPhase n).count (Ev.logMapFail k) = 0 := by
        rw [List.count_eq_zero]
        intro hmem
        rw [mem_splitPhase] at hmem
        obtain ⟨a, _, ha⟩ := hmem
        exact absurd ha (by simp)
      have h2 : (forkPhase pids (List.range n)).count (Ev.logMapFail k) = 0 := by
        rw [List.count_eq_zero]
        intro hmem
        obtain ⟨a, _, ha | ha | ha⟩ := mem_forkPhase hmem <;> exact absurd ha (by simp)
      have h3 : (waitPhase n mst).count (Ev.logMapFail k) =
          if (mst k).exited = true ∧ (mst k).code ≠ 0 then 1 else 0 := by
        unfold waitPhase
        rw [count_waitPhaseAux (List.range n) (List.nodup_range n)]
        simp [List.mem_range, hk]
      have h4 : (Ev.forkReduce rpid :: Ev.recordReducePid rpid :: Ev.waitReduce ::
          (if rst.exited = true ∧ rst.code ≠ 0 then [Ev.logReduceFail] else [])).count
            (Ev.logMapFail k) = 0 := by
        rw [List.count_eq_zero]
        intro hmem
        simp only [List.mem_cons] at hmem
        rcases hmem with h | h | h | h
        · exact absurd h (by simp)
        · exact absurd h (by simp)
        · exact absurd h (by simp)
        · by_cases hc : rst.exited = true ∧ rst.code ≠ 0
          · rw [if_pos hc] at h
            simp at h
          · rw [if_neg hc] at h
            simp at h
      simp only [List.count_append, h1, h2, h3, h4]
      omega
    · intro i hi
      rw [coordTrace_ok hp hr]
      have hm : Ev.waitMap i ∈ waitPhase n mst := mem_waitPhase.mpr ⟨i, hi, Or.inl rfl⟩
      simp [hm]
    · rw [coordTrace_ok hp hr]
      simp

/-- Witness for C4: a failing fork at index 1 aborts fatally, and a map
worker failing with exit status 1 is logged once without stopping the
pipeline. -/
theorem claim_C4_wit :
    (coordFatal 2 (fun i => if i = 0 then 1 else -1) 5 (fun _ => ⟨true, 0⟩) ⟨true, 0⟩ = true ∧
      (coordTrace 2 (fun i => if i = 0 then 1 else -1) 5 (fun _ => ⟨true, 0⟩)
        ⟨true, 0⟩).getLast? = some (Ev.forkAbort 1) ∧
      (∀ i, Ev.waitMap i ∉ coordTrace 2 (fun i => if i = 0 then 1 else -1) 5
        (fun _ => ⟨true, 0⟩) ⟨true, 0⟩) ∧
      (∀ p, Ev.forkReduce p ∉ coordTrace 2 (fun i => if i = 0 then 1 else -1) 5
        (fun _ => ⟨true, 0⟩) ⟨true, 0⟩)) ∧
    (coordFatal 2 (fun i => (i : Int) + 1) 5 (fun i => ⟨true, if i = 0 then 1 else 0⟩)
        ⟨true, 0⟩ = false ∧
      (∀ k < 2, (coordTrace 2 (fun i => (i : Int) + 1) 5
          (fun i => ⟨true, if i = 0 then 1 else 0⟩) ⟨true, 0⟩).count (Ev.logMapFail k) =
        (if ((fun i => (⟨true, if i = 0 then 1 else 0⟩ : WStatus)) k).exited = true ∧
            ((fun i => (⟨true, if i = 0 then 1 else 0⟩ : WStatus)) k).code ≠ 0
         then 1 else 0)) ∧
      (∀ i < 2, Ev.waitMap i ∈ coordTrace 2 (fun i => (i : Int) + 1) 5
        (fun i => ⟨true, if i = 0 then 1 else 0⟩) ⟨true, 0⟩) ∧
      Ev.forkReduce 5 ∈ coordTrace 2 (fun i => (i : Int) + 1) 5
        (fun i => ⟨true, if i = 0 then 1 else 0⟩) ⟨true, 0⟩) :=
  ⟨(claim_C4_thm 2 (fun i => if i = 0 then 1 else -1) 5 (fun _ => ⟨true, 0⟩) ⟨true, 0⟩).1
      1 (by decide) (by decide) (by decide),
   (claim_C4_thm 2 (fun i => (i : Int) + 1) 5 (fun i => ⟨true, if i = 0 then 1 else 0⟩)
      ⟨true, 0⟩).2 (by decide) (by decide)⟩

/-- C6: the recorded transform-worker pid list has exactly N entries
populated in index order with entry i equal to worker i's pid, the pids are
pairwise distinct (given the OS guarantee that simultaneously-live children
have distinct pids, expressed as injectivity of the pid oracle), and each
pid is recorded immediately at its fork, before any wait, independent of
completion order. -/
theorem claim_C6_thm (n : Nat) (pids : Nat → Int) (rpid : Int) (mst : Nat → WStatus)
    (rst : WStatus) (hp : ∀ i < n, 0 < pids i) (hr : 0 < rpid)
    (hinj : ∀ i < n, ∀ j < n, pids i = pids j → i = j) :
    (coordTrace n pids rpid mst rst).filterMap recMapEntry =
      (List.range n).map (fun i => (i, pids i)) ∧
    ((List.range n).map (fun i => pids i)).Pairwise (· ≠ ·) ∧
    (∀ i < n, ∃ A B, coordTrace n pids rpid mst rst =
        A ++ Ev.forkMap i (pids i) :: Ev.recordMapPid i (pids i) :: B ∧
      ∀ j, Ev.waitMap j ∉ A) := by
  refine ⟨?_, ?_, ?_⟩
  · rw [coordTrace_ok hp hr]
    simp only [List.filterMap_append, recMapEntry_splitPhase,
      recMapEntry_forkPhase (fun i hi => hp i (List.mem_range.mp hi)), recMapEntry_waitPhase]
    by_cases hc : rst.exited = true ∧ rst.code ≠ 0 <;>
      simp [hc, recMapEntry, List.filterMap_cons]
  · rw [List.pairwise_iff_getElem]
    intro a b ha hb hab
    simp only [List.getElem_map, List.getElem_range]
    simp only [List.length_map, List.length_range] at ha hb
    intro hEq
    have := hinj a ha b hb hEq
    omega
  · intro i hi
    obtain ⟨z, hz⟩ := range_split hi
    rw [coordTrace_ok hp hr, hz,
      forkPhase_append (fun j hj => hp j (List.mem_range.mp (hz ▸ List.mem_append_left (i :: z) hj)))]
    have hpi : 0 < pids i := hp i hi
    have hfork : forkPhase pids (i :: z) =
        Ev.forkMap i (pids i) :: Ev.recordMapPid i (pids i) :: forkPhase pids z := by
      simp only [forkPhase]
      rw [if_neg (by omega)]
    rw [hfork]
    refine ⟨splitPhase n ++ forkPhase pids (List.range i),
      forkPhase pids z ++ waitPhase n mst ++
        (Ev.forkReduce rpid :: Ev.recordReducePid rpid :: Ev.waitReduce ::
          (if rst.exited = true ∧ rst.code ≠ 0 then [Ev.logReduceFail] else [])), by simp, ?_⟩
    intro j
    simp only [List.mem_append]
    rintro (h | h)
    · rw [mem_splitPhase] at h
      obtain ⟨a, _, ha⟩ := h
      exact absurd ha (by simp)
    · have hpos : ∀ a ∈ List.range i, 0 < pids a := by
        intro a ha
        have hai : a < i := List.mem_range.mp ha
        exact hp a (by omega)
      rw [mem_forkPhase_ok hpos] at h
      obtain ⟨a, _, ha | ha⟩ := h <;> exact absurd ha (by simp)

/-- Witness for C6 at N = 2 with distinct concrete pids. -/
theorem claim_C6_wit :
    (coordTrace 2 (fun i => (i : Int) + 1) 5 (fun _ => ⟨true, 0⟩) ⟨true, 0⟩).filterMap
      recMapEntry = (List.range 2).map (fun i : Nat => (i, (i : Int) + 1)) ∧
    ((List.range 2).map (fun i => (i : Int) + 1)).Pairwise (· ≠ ·) ∧
    (∀ i < 2, ∃ A B, coordTrace 2 (fun i => (i : Int) + 1) 5 (fun _ => ⟨true, 0⟩)
        ⟨true, 0⟩ = A ++ Ev.forkMap i ((i : Int) + 1) :: Ev.recordMapPid i ((i : Int) + 1) :: B ∧
      ∀ j, Ev.waitMap j ∉ A) :=
  claim_C6_thm 2 (fun i => (i : Int) + 1) 5 (fun _ => ⟨true, 0⟩) ⟨true, 0⟩
    (by decide) (by decide) (by decide)

/-- C9: the coordinator logs a worker-failure diagnostic exactly for the
workers whose wait status shows a normal exit (WIFEXITED) with a nonzero
exit status; in particular a worker killed by a signal (not a normal exit)
produces no diagnostic. -/
theorem claim_C9_thm (n : Nat) (pids : Nat → Int) (rpid : Int) (mst : Nat → WStatus)
    (rst : WStatus) (hp : ∀ i < n, 0 < pids i) (hr : 0 < rpid) :
    (∀ i, Ev.logMapFail i ∈ coordTrace n pids rpid mst rst ↔
      i < n ∧ (mst i).exited = true ∧ (mst i).code ≠ 0) ∧
    (Ev.logReduceFail ∈ coordTrace n pids rpid mst rst ↔
      rst.exited = true ∧ rst.code ≠ 0) := by
  rw [coordTrace_ok hp hr]
  constructor
  · intro i
    simp only [List.mem_append, List.mem_cons]
    constructor
    · rintro (((h | h) | h) | h)
      · rw [mem_splitPhase] at h
        obtain ⟨j, _, hj⟩ := h
        exact absurd hj (by simp)
      · rw [mem_forkPhase_ok (fun j hj => hp j (List.mem_range.mp hj))] at h
        obtain ⟨j, _, hj | hj⟩ := h <;> exact absurd hj (by simp)
      · rw [mem_waitPhase] at h
        obtain ⟨j, hjn, hj | ⟨hj, hc⟩⟩ := h
        · exact absurd hj (by simp)
        · cases hj
          exact ⟨hjn, hc⟩
      · by_cases hc : rst.exited = true ∧ rst.code ≠ 0 <;> simp [hc] at h
    · rintro ⟨hi, hc⟩
      have hm : Ev.logMapFail i ∈ waitPhase n mst := by
        rw [mem_waitPhase]
        exact ⟨i, hi, Or.inr ⟨rfl, hc⟩⟩
      simp [hm]
  · simp only [List.mem_append, List.mem_cons]
    constructor
    · rintro (((h | h) | h) | h)
      · rw [mem_splitPhase] at h
        obtain ⟨j, _, hj⟩ := h
        exact absurd hj (by simp)
      · rw [mem_forkPhase_ok (fun j hj => hp j (List.mem_range.mp hj))] at h
        obtain ⟨j, _, hj | hj⟩ := h <;> exact absurd hj (by simp)
      · rw [mem_waitPhase] at h
        obtain ⟨j, _, hj | ⟨hj, _⟩⟩ := h <;> exact absurd hj (by simp)
      · by_cases hc : rst.exited = true ∧ rst.code ≠ 0
        · rw [if_pos hc] at h
          simp at h
          rcases h with h | h | h
          all_goals simp_all
        · rw [if_neg hc] at h
          simp at h
    · intro hc
      rw [if_pos hc]
      simp

/-- Witness for C9: worker 0 is killed by a signal (WIFEXITED false) and
gets no diagnostic; worker 1 exits normally with status 1 and gets one. -/
theorem claim_C9_wit :
    (∀ i, Ev.logMapFail i ∈ coordTrace 2 (fun i => (i : Int) + 1) 5
        (fun i => if i = 0 then ⟨false, 9⟩ else ⟨true, 1⟩) ⟨true, 0⟩ ↔
      i < 2 ∧ ((fun i => if i = 0 then (⟨false, 9⟩ : WStatus) else ⟨true, 1⟩) i).exited = true ∧
        ((fun i => if i = 0 then (⟨false, 9⟩ : WStatus) else ⟨true, 1⟩) i).code ≠ 0) ∧
    (Ev.logReduceFail ∈ coordTrace 2 (fun i => (i : Int) + 1) 5
        (fun i => if i = 0 then ⟨false, 9⟩ else ⟨true, 1⟩) ⟨true, 0⟩ ↔
      (⟨true, 0⟩ : WStatus).exited = true ∧ (⟨true, 0⟩ : WStatus).code ≠ 0) :=
  claim_C9_thm 2 (fun i => (i : Int) + 1) 5
    (fun i => if i = 0 then ⟨false, 9⟩ else ⟨true, 1⟩) ⟨true, 0⟩ (by decide) (by decide)

/-- C5 counterexample: in a valid schedule of a 1-split job the creation of
mr-0.itm does not precede the start of transform worker 0 — the artifact is
not created before the workers start; the child itself creates it
(mapreduce.c line 92). -/
theorem claim_C5_cex :
    ValidSchedule 1 (fun _ => 1) 2 (fun _ => ⟨true, 0⟩) ⟨true, 0⟩
      (fun _ => .ran 0) (.ran 0) sched0 ∧
    Ev.createItm 0 ∈ sched0 ∧ Ev.childStart 0 ∈ sched0 ∧
    ¬ sched0.indexOf (Ev.createItm 0) < sched0.indexOf (Ev.childStart 0) := by
  refine ⟨?_, by decide, by decide, by decide⟩
  unfold ValidSchedule
  decide

/-- C5 (amended): in every valid schedule, mr-i.itm is created (if at all)
by transform worker i itself, after that worker starts; it is created at
most once, and every event that creates or writes mr-i.itm is an event of
transform worker i. -/
theorem claim_C5_thm (n : Nat) (pids : Nat → Int) (rpid : Int) (mst : Nat → WStatus)
    (rst : WStatus) (moc : Nat → MapChildOutcome) (roc : ReduceOutcome) (s : List Ev)
    (hv : ValidSchedule n pids rpid mst rst moc roc s) :
    ∀ i < n,
      (Ev.createItm i ∈ s → [Ev.childStart i, Ev.createItm i].Sublist s) ∧
      s.count (Ev.createItm i) ≤ 1 ∧
      (∀ e, writesItm i e = true → isMapChildEv i e = true) := by
  intro i hi
  have hf : s.filter (isMapChildEv i) = mapChildTrace i (moc i) := hv.2.2.2.1 i hi
  have hsub : List.Sublist (mapChildTrace i (moc i)) s := hf ▸ List.filter_sublist s
  refine ⟨?_, ?_, ?_⟩
  · intro hmem
    have hmemf : Ev.createItm i ∈ s.filter (isMapChildEv i) :=
      List.mem_filter.mpr ⟨hmem, by simp [isMapChildEv]⟩
    rw [hf] at hmemf
    cases hmo : moc i with
    | splitOpenFail => rw [hmo] at hmemf; simp [mapChildTrace] at hmemf
    | itmCreateFail => rw [hmo] at hmemf; simp [mapChildTrace] at hmemf
    | ran ret =>
      refine List.Sublist.trans ?_ (hmo ▸ hsub)
      simp only [mapChildTrace]
      exact (List.Sublist.cons₂ _ (List.Sublist.cons _
        (List.Sublist.cons₂ _ (List.nil_sublist _))))
  · have hcnt : s.count (Ev.createItm i) =
        (s.filter (isMapChildEv i)).count (Ev.createItm i) := by
      rw [List.count_filter (by simp [isMapChildEv])]
    rw [hcnt, hf]
    cases moc i with
    | splitOpenFail => simp [mapChildTrace, List.count_cons]
    | itmCreateFail => simp [mapChildTrace, List.count_cons]
    | ran ret => simp [mapChildTrace, List.count_cons]
  · intro e he
    cases e <;> simp_all [writesItm, isMapChildEv]

/-- Witness for the amended C5 at a concrete valid schedule. -/
theorem claim_C5_wit :
    (Ev.createItm 0 ∈ sched0 → [Ev.childStart 0, Ev.createItm 0].Sublist sched0) ∧
    sched0.count (Ev.createItm 0) ≤ 1 ∧
    (∀ e, writesItm 0 e = true → isMapChildEv 0 e = true) :=
  claim_C5_thm 1 (fun _ => 1) 2 (fun _ => ⟨true, 0⟩) ⟨true, 0⟩
    (fun _ => .ran 0) (.ran 0) sched0 (by unfold ValidSchedule; decide) 0 (by decide)

/-- C10: a final record not terminated by a newline and shorter than 1023
bytes is never flushed: word_finder_map's output on pre ++ tail equals its
output on pre alone, so a matching unterminated last line is silently
dropped (the loop at usr_functions.c line 167 only flushes on a newline or
a full 1023-byte line buffer). -/
theorem claim_C10_thm (target pre tail : List Nat) (_ht : target ≠ [])
    (hnl : ∀ b ∈ tail, b ≠ NL) (hlen : tail.length < 1023)
    (hpre : pre = [] ∨ pre.getLast? = some NL) :
    word_finder_map target (pre ++ tail) = word_finder_map target pre := by
  unfold word_finder_map
  rw [wfGo_append]
  have hacc : wfAcc [] pre = [] := by
    rcases hpre with rfl | hlast
    · rfl
    · have hne : pre ≠ [] := by
        intro h
        rw [h] at hlast
        simp at hlast
      obtain ⟨ys, hys⟩ : ∃ ys, pre = ys ++ [NL] := by
        refine ⟨pre.dropLast, ?_⟩
        have hdg := List.dropLast_append_getLast hne
        rw [(List.getLast_eq_iff_getLast?_eq_some hne).mpr hlast] at hdg
        exact hdg.symm
      rw [hys, wfAcc_append]
      simp [wfAcc]
  rw [hacc, wfGo_no_flush target tail [] hnl (by simpa using Nat.le_of_lt hlen)]
  simp

/-- Witness for C10: the final line "cat" matches the target "cat" but is
dropped because it is unterminated. -/
theorem claim_C10_wit :
    word_finder_map (strBytes "cat") (strBytes "a cat\n" ++ strBytes "cat") =
      word_finder_map (strBytes "cat") (strBytes "a cat\n") ∧
    word_finder_map (strBytes "cat") (strBytes "a cat\n") = strBytes "a cat\n" := by
  refine ⟨claim_C10_thm (strBytes "cat") (strBytes "a cat\n") (strBytes "cat")
    (by decide) (by decide) (by decide) (by decide), by decide⟩

/-- C1 counterexample: (a) for input "AB\n" and N = 3, split 1 (an index in
0..N-2) holds 0 bytes, fewer than floor(3/3) = 1; (b) for a 1500-byte record
and N = 2, split 0 ends mid-record (no trailing newline, nonempty); (c) for
input "AB" (no final newline) and N = 2, split 0 is nonempty and not
newline-terminated. -/
theorem claim_C1_cex :
    (((mrSplits 3 (strBytes "AB\n")).getD 1 []).length <
      (strBytes "AB\n").length / 3) ∧
    (((mrSplits 2 longInput).getD 0 []).getLast? ≠ some NL ∧
      (mrSplits 2 longInput).getD 0 [] ≠ []) ∧
    (((mrSplits 2 (strBytes "AB")).getD 0 []).getLast? ≠ some NL ∧
      (mrSplits 2 (strBytes "AB")).getD 0 [] ≠ []) := by
  decide

/-- Witness for the amended C1 at input "AAAB\nBBCC\n" with N = 2, i = 0. -/
theorem claim_C1_wit :
    ((mrSplits 2 (strBytes "AAAB\nBBCC\n")).getD 0 [] = [] ∨
      ((mrSplits 2 (strBytes "AAAB\nBBCC\n")).getD 0 []).getLast? = some NL) ∧
    ((strBytes "AAAB\nBBCC\n").length / 2 ≤
        ((mrSplits 2 (strBytes "AAAB\nBBCC\n")).getD 0 []).length ∨
      (stageRem ((strBytes "AAAB\nBBCC\n").length / 2) (0 + 1) (strBytes "AAAB\nBBCC\n") = [] ∧
        ∀ j, 0 < j → j < 2 → (mrSplits 2 (strBytes "AAAB\nBBCC\n")).getD j [] = [])) :=
  claim_C1_thm 2 (strBytes "AAAB\nBBCC\n") (by decide) (by unfold NulFree; decide)
    (ShortLines_of_short (by decide)) (by unfold EndsNL; decide) 0 (by decide)

/-- C2 counterexample: for a single 1500-byte record and N = 2, the record
is split across split 0 and split 1: split 1 is nonempty while split 0 does
not end at a record boundary. -/
theorem claim_C2_cex :
    (mrSplits 2 longInput).getD 1 [] ≠ [] ∧
    ((mrSplits 2 longInput).getD 0 []).getLast? ≠ some NL := by
  decide

/-- Witness for the amended C2 at input "AAAB\nBBCC\n" with N = 2. -/
theorem claim_C2_wit :
    (∃ k, (mrSplits 2 (strBytes "AAAB\nBBCC\n")).flatten = (strBytes "AAAB\nBBCC\n").take k ∧
      (k = (strBytes "AAAB\nBBCC\n").length ∨
        (mrSplits 2 (strBytes "AAAB\nBBCC\n")).flatten = [] ∨
        ((mrSplits 2 (strBytes "AAAB\nBBCC\n")).flatten).getLast? = some NL)) ∧
    (∀ i, i + 1 < 2 → (mrSplits 2 (strBytes "AAAB\nBBCC\n")).getD (i + 1) [] ≠ [] →
      ((mrSplits 2 (strBytes "AAAB\nBBCC\n")).getD i []).getLast? = some NL) :=
  claim_C2_thm 2 (strBytes "AAAB\nBBCC\n") (by decide) (by unfold NulFree; decide)
    (ShortLines_of_short (by decide))

/-- C7: end-to-end letter counting on input "AAAB\nBBCC\n" with split
count 2: the splits, both intermediate artifacts and the final result are
exactly as the claim states. -/
theorem claim_C7_thm :
    mrSplits 2 (strBytes "AAAB\nBBCC\n") = [strBytes "AAAB\n", strBytes "BBCC\n"] ∧
    letter_counter_map (strBytes "AAAB\n") = strBytes "A 3\nB 1\n" ∧
    letter_counter_map (strBytes "BBCC\n") = strBytes "B 2\nC 2\n" ∧
    letter_counter_reduce [strBytes "A 3\nB 1\n", strBytes "B 2\nC 2\n"] =
      strBytes "A 3\nB 3\nC 2\n" := by
  decide

/-- C8: end-to-end word search for "cat" on the lines "the cat sat" and
"concatenate" with split count 2: the matching line is emitted, the
boundary check excludes "concatenate", and the final result is exactly
"the cat sat\n". -/
theorem claim_C8_thm :
    mrSplits 2 (strBytes "the cat sat\nconcatenate\n") =
      [strBytes "the cat sat\n", strBytes "concatenate\n"] ∧
    word_finder_map (strBytes "cat") (strBytes "the cat sat\n") = strBytes "the cat sat\n" ∧
    word_finder_map (strBytes "cat") (strBytes "concatenate\n") = [] ∧
    word_finder_reduce [strBytes "the cat sat\n", []] = strBytes "the cat sat\n" := by
  decide

end MapReduce
